import Mathlib

/-!
Verification development for the Json2Class generator (src/generator.py).

The Python module is embedded shallowly:

* JSON values (the parsed `json.load` result) are the inductive type `J`.
  Python's `bool`/`int`/`float`/`str`/`None`/`list`/`dict` map to the
  constructors below; `dict` keeps the document's key order, as Python
  dicts do.
* The traversal state shared by `infer_type` and `generate_class`
  (`classes`, `structure_map`, `name_counts`) is the structure `St`.
  `classes` and `structure_map` are insertion-ordered association lists,
  matching Python dict semantics; `name_counts` keeps only its key set,
  because the generator never reads or updates the stored counts.
  `St.stack` is ghost data (the names of record definitions whose
  `generate_class` call is still running); it changes nothing observable
  and exists only so theorems can speak about in-progress definitions.
* `structure_map` is keyed by the canonical structural signature itself
  (the sorted key/type-name pairs) instead of by the first 8 hex digits
  of its MD5, i.e. the hash is abstracted as injective.
* The mutually recursive `infer_type` / `generate_class` pair is embedded
  with a fuel parameter so that every definition is structurally
  recursive and kernel-computable.  Exhausted fuel returns the input
  state unchanged; the canonical entry points always supply enough fuel
  (one unit is consumed per step while the remaining document shrinks).
* Each generated class is kept as a `RecordDefinition` (field list with
  name, rendered type string, captured default value and the
  `__post_init__` conversion entry) rather than as rendered Python
  source text; the emitted artifact is these definitions in `classes`
  order followed by the root definition.  `Field.refs` is ghost data
  recording which record names the field's inferred type refers to and
  whether the reference was resolved against a still-in-progress
  (ancestor) definition.
-/

/-- A parsed JSON value as Python represents it: `None`, `bool`, `int`,
`float` (kept symbolically by its literal, no arithmetic is performed on
it), `str`, `list`, and key-ordered `dict` with unique keys. -/
inductive J where
  | null : J
  | bool : Bool → J
  | int : Int → J
  | flt : Int → J
  | str : String → J
  | arr : List J → J
  | obj : List (String × J) → J

mutual
/-- Size measure used for fuel bounds. -/
def jsize : J → Nat
  | .null | .bool _ | .int _ | .flt _ | .str _ => 1
  | .arr l => 1 + lsize l
  | .obj o => 1 + osize o

def lsize : List J → Nat
  | [] => 0
  | x :: xs => 1 + jsize x + lsize xs

def osize : List (String × J) → Nat
  | [] => 0
  | (_, v) :: xs => 1 + jsize v + osize xs
end

/-- Python's `type(v).__name__` for a parsed JSON value. -/
def pyTypeName : J → String
  | .null => "NoneType"
  | .bool _ => "bool"
  | .int _ => "int"
  | .flt _ => "float"
  | .str _ => "str"
  | .arr _ => "list"
  | .obj _ => "dict"

/-- `isinstance(v, bool)`. -/
def pyIsBool : J → Bool
  | .bool _ => true
  | _ => false

/-- `isinstance(v, int)`: in Python, `bool` is a subclass of `int`, so a
boolean value satisfies this check as well. -/
def pyIsInt : J → Bool
  | .bool _ => true
  | .int _ => true
  | _ => false

/-- `isinstance(v, float)`. -/
def pyIsFloat : J → Bool
  | .flt _ => true
  | _ => false

/-- `isinstance(v, str)`. -/
def pyIsStr : J → Bool
  | .str _ => true
  | _ => false

/-- `v is None`. -/
def pyIsNone : J → Bool
  | .null => true
  | _ => false

/-- `isinstance(v, dict)`. -/
def pyIsDict : J → Bool
  | .obj _ => true
  | _ => false

/-- Python's `str.title()` on one segment: the first letter of each
alphabetic run is uppercased, the rest of the run lowercased. -/
def pyTitleGo : List Char → Bool → List Char
  | [], _ => []
  | c :: cs, prevAlpha =>
    (if c.isAlpha && !prevAlpha then c.toUpper
     else if c.isAlpha then c.toLower else c) :: pyTitleGo cs c.isAlpha

def pyTitle (s : String) : String := String.mk (pyTitleGo s.data false)

/-- `text.split('_')` for one separator character: Python string split. -/
def splitOnCharAux (c : Char) : List Char → List Char → List String
  | [], acc => [String.mk acc.reverse]
  | d :: ds, acc =>
    if d = c then String.mk acc.reverse :: splitOnCharAux c ds []
    else splitOnCharAux c ds (d :: acc)

def splitOnChar (s : String) (c : Char) : List String := splitOnCharAux c s.data []

/-- `sep.join(parts)`. -/
def joinSep (sep : String) : List String → String
  | [] => ""
  | [x] => x
  | x :: xs => x ++ sep ++ joinSep sep xs

/-- `text[0].upper() + text[1:]` (identity on the empty string, which the
generator never feeds it). -/
def capFirst (s : String) : String :=
  match s.data with
  | [] => ""
  | c :: cs => String.mk (c.toUpper :: cs)

/-- `to_pascal_case` from src/generator.py lines 26-40. -/
def to_pascal_case (text : String) : String :=
  if text.data.contains '_' then
    joinSep "" ((splitOnChar text '_').map pyTitle)
  else capFirst text

/-- `name.endswith('s')`. -/
def endsWithS (s : String) : Bool :=
  match s.data.getLast? with
  | some c => c = 's'
  | none => false

/-- `name[:-1]`. -/
def strDropLast (s : String) : String := String.mk (s.data.dropLast)

/-- `get_singular_name` from src/generator.py lines 42-56. -/
def get_singular_name (name : String) : String :=
  if endsWithS name then strDropLast name else name

/-- The candidate class name tried at loop counter `c` in the name
uniquification loop (src/generator.py lines 128-133): the base name for
`c = 0`, otherwise the base name followed by the decimal counter. -/
def mkName (base : String) (c : Nat) : String :=
  if c = 0 then base else base ++ Nat.repr c

/-- One step of the `while class_name in classes or class_name in
name_counts` loop; the fuel argument makes it structural, and the caller
passes enough fuel for the loop to find a free name. -/
def allocAux (used : List String) (base : String) : Nat → Nat → String
  | 0, c => mkName base c
  | fuel + 1, c => if mkName base c ∈ used then allocAux used base fuel (c + 1) else mkName base c

/-- The whole uniquification loop: try `base`, `base1`, `base2`, ... and
return the first candidate not in `used`. -/
def alloc (used : List String) (base : String) : String :=
  allocAux used base (used.length + 1) 0

/-- Association-list lookup, modelling Python `d[k]` / `k in d`. -/
def alookup {β : Type} : List (String × β) → String → Option β
  | [], _ => none
  | (k, v) :: rest, key => if k = key then some v else alookup rest key

/-- Association-list lookup for arbitrary decidable-equality keys. -/
def alookupP {α β : Type} [DecidableEq α] : List (α × β) → α → Option β
  | [], _ => none
  | (k, v) :: rest, key => if k = key then some v else alookupP rest key

/-- Python dict assignment `d[k] = v`: replace in place when the key is
present, otherwise append. -/
def dinsert {α β : Type} [DecidableEq α] : List (α × β) → α → β → List (α × β)
  | [], k, v => [(k, v)]
  | (k0, v0) :: rest, k, v => if k0 = k then (k, v) :: rest else (k0, v0) :: dinsert rest k v

/-- Character-list prefix test. -/
def isPrefixChars : List Char → List Char → Bool
  | [], _ => true
  | _ :: _, [] => false
  | c :: cs, d :: ds => c = d && isPrefixChars cs ds

/-- Boolean contiguous-substring test (Python's `in` on strings),
used for the `'Optional' in typ` check. -/
def hasInfixAux (pat : List Char) : List Char → Bool
  | [] => pat.isEmpty
  | c :: rest => isPrefixChars pat (c :: rest) || hasInfixAux pat rest

def strContains (s pat : String) : Bool := hasInfixAux pat.data s.data

/-- Code-point lexicographic comparison of character lists, Python's
string ordering. -/
def charsLe : List Char → List Char → Bool
  | [], _ => true
  | _ :: _, [] => false
  | c :: cs, d :: ds => if c = d then charsLe cs ds else decide (c < d)

/-- Python `s1 <= s2` on strings. -/
def strLe (a b : String) : Bool := charsLe a.data b.data

/-- Python `sorted` on a list of strings (code-point lexicographic). -/
def sortStr (l : List String) : List String :=
  List.insertionSort (fun a b : String => strLe a b = true) l

/-- The structural signature of an object (src/generator.py lines
110-113): the key/`type(v).__name__` pairs sorted by key.  JSON object
keys are unique, so sorting pairs by key matches Python's
`sorted(value.items())` followed by `json.dumps(..., sort_keys=True)`,
and the resulting list determines the dumped string injectively. -/
def sigOf (o : List (String × J)) : List (String × String) :=
  List.insertionSort (fun a b => strLe a.1 b.1 = true)
    (o.map (fun p => (p.1, pyTypeName p.2)))

/-- Rendering of a non-empty list's element types (src/generator.py lines
95-104): Python collects the element type strings into a `set`; a
singleton set renders as `List[t]`, otherwise the distinct strings are
sorted and joined with ` | `. -/
def renderListType (ts : List String) : String :=
  match ts.dedup with
  | [t] => "List[" ++ t ++ "]"
  | ds => "List[" ++ joinSep " | " (sortStr ds) ++ "]"

/-- `typ[5:-1] if typ.startswith('List[') else 'dict'` (line 178). -/
def extractItemType (typ : String) : String :=
  if isPrefixChars "List[".data typ.data then String.mk ((typ.data.drop 5).dropLast)
  else "dict"

/-- A reference from a field's inferred type to a generated record name
(ghost data).  The flag is `true` when the reference was resolved from
`structure_map` against a definition whose `generate_class` call was
still in progress (a structural ancestor). -/
abbrev Ref := String × Bool

/-- One generated dataclass field: its name, rendered type annotation,
captured default (the literal observed value whose `repr` the generator
embeds), and the `__post_init__` conversion entry `(class name, is_list)`
when present.  `refs` is ghost data, see `Ref`. -/
structure FieldDef where
  name : String
  typ : String
  dflt : J
  conv : Option (String × Bool)
  refs : List Ref

/-- A generated record definition (one dataclass): its ordered fields. -/
structure RecordDef where
  fields : List FieldDef

/-- The traversal state threaded through `infer_type`/`generate_class`:
`classes` (name to definition, insertion-ordered), `structure_map`
(signature to class name, insertion-ordered), the key set of
`name_counts`, and the ghost stack of in-progress definitions. -/
structure St where
  classes : List (String × RecordDef)
  smap : List (List (String × String) × String)
  nameCounts : List String
  stack : List String

/-- The names of the completed record definitions, in emission order. -/
def names (s : St) : List String := s.classes.map Prod.fst

/-- The set the uniquification loop tests membership in:
`class_name in classes or class_name in name_counts`. -/
def usedNames (s : St) : List String := names s ++ s.nameCounts

/-- The base-name derivation of src/generator.py lines 120-125: PascalCase
the field name when one is present (capitalizing a still-lowercase first
character), else the fixed fallback `GeneratedClass`.  `if field_name:`
is Python truthiness, so the empty string also falls back. -/
def baseNameOf (fieldName : Option String) : String :=
  match fieldName with
  | some f =>
    if f ≠ "" then
      let b := to_pascal_case f
      match b.data with
      | [] => b
      | c :: cs => if c.isLower then String.mk (c.toUpper :: cs) else b
    else "GeneratedClass"
  | none => "GeneratedClass"

/-- The item-name hint used for list elements (src/generator.py lines
90-93): the singular of the field name when one is present (`if
field_name:` is Python truthiness, so the empty string gives no hint). -/
def itemNameOf (fieldName : Option String) : Option String :=
  match fieldName with
  | some f => if f ≠ "" then some (get_singular_name f) else none
  | none => none

/-- The state just before recursing into a fresh object's fields
(src/generator.py lines 135-139): the signature is registered in
`structure_map`, the class name enters `name_counts`, and (ghost) the
name is pushed on the in-progress stack. -/
def pushedSt (s : St) (sg : List (String × String)) (cname : String) : St :=
  { classes := s.classes
    smap := dinsert s.smap sg cname
    nameCounts := if cname ∈ s.nameCounts then s.nameCounts else s.nameCounts ++ [cname]
    stack := cname :: s.stack }

/-- The state after `generate_class` returned (line 141): the completed
definition is stored under its name and (ghost) the stack is restored to
what it was before the push. -/
def popSt (s2 : St) (cname : String) (fs : List FieldDef) (retStack : List String) : St :=
  { classes := dinsert s2.classes cname ⟨fs⟩
    smap := s2.smap
    nameCounts := s2.nameCounts
    stack := retStack }

mutual
/-- `infer_type` (src/generator.py lines 58-144), embedded with fuel.
Returns the rendered Python type string, the ghost list of record-name
references the string contains, and the updated state.  The primitive
checks keep Python's `isinstance` order: boolean before integer before
float before string before `None` before list before dict. -/
def infer_typeF : Nat → J → Option String → St → String × List Ref × St
  | 0, _, _, s => ("", [], s)
  | fuel + 1, v, fieldName, s =>
    if pyIsBool v then ("bool", [], s)
    else if pyIsInt v then ("int", [], s)
    else if pyIsFloat v then ("float", [], s)
    else if pyIsStr v then ("str", [], s)
    else if pyIsNone v then ("Optional[Any]", [], s)
    else
      match v with
      | .arr [] => ("List[Any]", [], s)
      | .arr l =>
        match infer_itemsF fuel l (itemNameOf fieldName) s with
        | (ts, rs, s1) => (renderListType ts, rs, s1)
      | .obj o =>
        let sg := sigOf o
        match alookupP s.smap sg with
        | some n => (n, [(n, s.stack.contains n)], s)
        | none =>
          let cname := alloc (usedNames s) (baseNameOf fieldName)
          match gen_fieldsF fuel o (pushedSt s sg cname) with
          | (fs, s2) => (cname, [(cname, false)], popSt s2 cname fs s.stack)
      | _ => ("Any", [], s)

/-- The `for item in value: types.add(infer_type(item, ...))` loop inside
the list branch; returns the element type strings in traversal order
(made a set by `renderListType`). -/
def infer_itemsF : Nat → List J → Option String → St → List String × List Ref × St
  | 0, _, _, s => ([], [], s)
  | _ + 1, [], _, s => ([], [], s)
  | fuel + 1, x :: xs, hint, s =>
    match infer_typeF fuel x hint s with
    | (t, r1, s1) =>
      match infer_itemsF fuel xs hint s1 with
      | (ts, r2, s2) => (t :: ts, r1 ++ r2, s2)

/-- The field loop of `generate_class` (src/generator.py lines 164-192):
for each key, infer the type, capture the literal default, and record the
`__post_init__` conversion for object fields and for non-empty lists
whose first element is an object (for those, the item class name is
sliced out of the rendered `List[...]` string, line 178; for object
fields the class name is obtained by calling `infer_type` a second time,
line 184). -/
def gen_fieldsF : Nat → List (String × J) → St → List FieldDef × St
  | 0, _, s => ([], s)
  | _ + 1, [], s => ([], s)
  | fuel + 1, (key, v) :: rest, s =>
    match infer_typeF fuel v (some key) s with
    | (typ, r1, s1) =>
      match
        (match v with
         | .arr (x :: _) =>
           if pyIsDict x then (some (extractItemType typ, true), ([] : List Ref), s1)
           else (none, [], s1)
         | .obj _ =>
           match infer_typeF fuel v (some key) s1 with
           | (sub, r2, s2) => (some (sub, false), r2, s2)
         | _ => (none, [], s1)) with
      | (conv, r2, s2) =>
        let wtyp :=
          if strContains typ "Optional" || typ == "Any" then "Optional[" ++ typ ++ "]" else typ
        let fld : FieldDef := { name := key, typ := wtyp, dflt := v, conv := conv, refs := r1 ++ r2 }
        match gen_fieldsF fuel rest s2 with
        | (fs, s3) => (fld :: fs, s3)
end

/-- `generate_class` (src/generator.py lines 146-223) with canonical
fuel: along every recursive call chain the remaining document shrinks at
least as fast as the fuel, so `osize o + 1` units never run out. -/
def generate_class (o : List (String × J)) (s : St) : RecordDef × St :=
  match gen_fieldsF (osize o + 1) o s with
  | (fs, s1) => (⟨fs⟩, s1)

/-- `infer_type` with canonical fuel. -/
def infer_type (v : J) (fieldName : Option String) (s : St) : String × List Ref × St :=
  infer_typeF (jsize v + 1) v fieldName s

/-- The empty per-run state (`classes = {}`, `structure_map = {}`,
`name_counts = {}` in `main`, lines 252-254). -/
def st0 : St := ⟨[], [], [], []⟩

/-- Everything `main` (src/generator.py lines 225-279) has produced just
before rendering: the nested class map, the registry, the name counter
keys, the root name derived from the input file stem, and the root
definition. -/
structure RunResult where
  classes : List (String × RecordDef)
  smap : List (List (String × String) × String)
  nameCounts : List String
  stack : List String
  rootName : String
  rootDef : RecordDef

/-- `main` on an already-parsed document: derive the root class name from
the file stem via `to_pascal_case` (line 260) and run `generate_class`
on a fresh state (line 262).  The root name is never entered into
`classes`, `structure_map` or `name_counts`. -/
def main_run (stem : String) (doc : List (String × J)) : RunResult :=
  match generate_class doc st0 with
  | (rd, s) =>
    { classes := s.classes, smap := s.smap, nameCounts := s.nameCounts, stack := s.stack
      rootName := to_pascal_case stem, rootDef := rd }

/-- The order in which class definitions appear in the emitted artifact
(lines 272-274): the entries of `classes` in insertion order, then the
root definition. -/
def emissionOrder (r : RunResult) : List String := r.classes.map Prod.fst ++ [r.rootName]

/-- The rendered type annotations of the fields named `name` (a
singleton for the documents considered here). -/
def fieldTyps (rd : RecordDef) (name : String) : List String :=
  (rd.fields.filter (fun f => f.name == name)).map (fun f => f.typ)

/-! ### The uniquification loop terminates on a fresh name

`alloc` mirrors the `while` loop at src/generator.py lines 128-133 with a
fuel of `used.length + 1`; since the candidate names `base`, `base1`,
`base2`, ... are pairwise distinct (decimal rendering is injective), the
fuel always suffices, and the loop returns the first free candidate. -/

/-- Numeric value of a decimal digit character. -/
def digitVal (c : Char) : Nat := c.toNat - 48

theorem digitVal_digitChar : ∀ m : Nat, m < 10 → digitVal (Nat.digitChar m) = m := by decide

theorem toDigitsCore_shift (b : Nat) :
    ∀ (fuel n : Nat) (ds : List Char),
      Nat.toDigitsCore b fuel n ds = Nat.toDigitsCore b fuel n [] ++ ds := by
  intro fuel
  induction fuel with
  | zero => intro n ds; simp [Nat.toDigitsCore]
  | succ fuel ih =>
    intro n ds
    simp only [Nat.toDigitsCore]
    by_cases h : n / b = 0
    · simp [h]
    · simp only [h, if_false]
      rw [ih (n / b) (Nat.digitChar (n % b) :: ds), ih (n / b) [Nat.digitChar (n % b)]]
      simp

/-- Reading a digit string back as a number, starting from `a`. -/
def valFrom (a : Nat) (l : List Char) : Nat :=
  l.foldl (fun acc c => acc * 10 + digitVal c) a

theorem valFrom_append (a : Nat) (l1 l2 : List Char) :
    valFrom a (l1 ++ l2) = valFrom (valFrom a l1) l2 := by
  simp [valFrom, List.foldl_append]

theorem valFrom_toDigitsCore :
    ∀ fuel n : Nat, n < fuel → valFrom 0 (Nat.toDigitsCore 10 fuel n []) = n := by
  intro fuel
  induction fuel with
  | zero => intro n hn; omega
  | succ fuel ih =>
    intro n hn
    simp only [Nat.toDigitsCore]
    by_cases h : n / 10 = 0
    · have hlt : n < 10 := by omega
      have hm : n % 10 = n := Nat.mod_eq_of_lt hlt
      simp [h, valFrom, hm, digitVal_digitChar n hlt]
    · have hn10 : n / 10 < fuel := by
        have : n / 10 < n := Nat.div_lt_self (by omega) (by omega)
        omega
      simp only [h, if_false]
      rw [toDigitsCore_shift, valFrom_append, ih (n / 10) hn10]
      have hm : n % 10 < 10 := Nat.mod_lt _ (by omega)
      simp [valFrom, digitVal_digitChar _ hm]
      omega

theorem str_ext (a b : String) (h : a.data = b.data) : a = b := by
  cases a
  cases b
  exact congrArg String.mk h

theorem repr_injective : ∀ m n : Nat, Nat.repr m = Nat.repr n → m = n := by
  intro m n h
  have hd : Nat.toDigitsCore 10 (m + 1) m [] = Nat.toDigitsCore 10 (n + 1) n [] := by
    have hdata := congrArg String.data h
    simpa [Nat.repr, Nat.toDigits, List.asString] using hdata
  have h1 := valFrom_toDigitsCore (m + 1) m (by omega)
  have h2 := valFrom_toDigitsCore (n + 1) n (by omega)
  rw [hd] at h1
  omega

theorem toDigitsCore_length_mono (b : Nat) :
    ∀ fuel n (ds : List Char), ds.length ≤ (Nat.toDigitsCore b fuel n ds).length := by
  intro fuel
  induction fuel with
  | zero => intro n ds; simp [Nat.toDigitsCore]
  | succ fuel ih =>
    intro n ds
    simp only [Nat.toDigitsCore]
    by_cases h : n / b = 0
    · simp [h]
    · simp only [h, if_false]
      have := ih (n / b) (Nat.digitChar (n % b) :: ds)
      simp at this
      omega

theorem repr_ne_empty (n : Nat) : Nat.repr n ≠ "" := by
  intro h
  have hdata : Nat.toDigitsCore 10 (n + 1) n [] = [] := by
    have hd := congrArg String.data h
    simpa [Nat.repr, Nat.toDigits, List.asString] using hd
  simp only [Nat.toDigitsCore] at hdata
  by_cases h0 : n / 10 = 0
  · simp [h0] at hdata
  · simp only [h0, if_false] at hdata
    have hmono := toDigitsCore_length_mono 10 n (n / 10) [Nat.digitChar (n % 10)]
    rw [hdata] at hmono
    simp at hmono

theorem data_append (a b : String) : (a ++ b).data = a.data ++ b.data := rfl

theorem mkName_injective (base : String) :
    ∀ i j : Nat, mkName base i = mkName base j → i = j := by
  have key : ∀ i j : Nat, i = 0 → j ≠ 0 → mkName base i ≠ mkName base j := by
    intro i j hi hj h
    subst hi
    simp [mkName, hj] at h
    have hdata := congrArg String.data h
    rw [data_append] at hdata
    have hlen := congrArg List.length hdata
    simp only [List.length_append] at hlen
    have hz : (Nat.repr j).data.length = 0 := by omega
    exact repr_ne_empty j (str_ext _ _ (List.length_eq_zero.mp hz))
  intro i j h
  by_cases hi : i = 0 <;> by_cases hj : j = 0
  · omega
  · exact absurd h (key i j hi hj)
  · exact absurd h.symm (key j i hj hi)
  · simp only [mkName, if_neg hi, if_neg hj] at h
    have hdata := congrArg String.data h
    rw [data_append, data_append] at hdata
    have := List.append_cancel_left hdata
    exact repr_injective i j (str_ext _ _ this)

theorem exists_mkName_not_mem (used : List String) (base : String) :
    ∃ k, k ≤ used.length ∧ mkName base k ∉ used := by
  by_contra hcon
  push_neg at hcon
  have hsub : ((List.range (used.length + 1)).map (mkName base)) ⊆ used := by
    intro x hx
    simp only [List.mem_map, List.mem_range] at hx
    obtain ⟨k, hk, rfl⟩ := hx
    exact hcon k (by omega)
  have hnd : ((List.range (used.length + 1)).map (mkName base)).Nodup :=
    (List.nodup_range _).map (fun a b => mkName_injective base a b)
  have h1 : ((List.range (used.length + 1)).map (mkName base)).toFinset.card
      = used.length + 1 := by
    rw [List.toFinset_card_of_nodup hnd]
    simp
  have h2 : ((List.range (used.length + 1)).map (mkName base)).toFinset ⊆ used.toFinset := by
    intro x hx
    rw [List.mem_toFinset] at hx ⊢
    exact hsub hx
  have h3 := Finset.card_le_card h2
  have h4 := used.toFinset_card_le
  omega

theorem allocAux_found (used : List String) (base : String) :
    ∀ fuel c, (∃ k, k < fuel ∧ mkName base (c + k) ∉ used) →
      ∃ k, allocAux used base fuel c = mkName base (c + k) ∧
        mkName base (c + k) ∉ used ∧ ∀ j < k, mkName base (c + j) ∈ used := by
  intro fuel
  induction fuel with
  | zero => intro c hex; obtain ⟨k, hk, _⟩ := hex; omega
  | succ fuel ih =>
    intro c hex
    by_cases hc : mkName base c ∈ used
    · obtain ⟨k, hk, hfree⟩ := hex
      have hkpos : k ≠ 0 := by
        intro h0
        rw [h0] at hfree
        simp at hfree
        exact hfree hc
      obtain ⟨k1, rfl⟩ : ∃ k1, k = k1 + 1 := ⟨k - 1, by omega⟩
      have hex1 : ∃ k2, k2 < fuel ∧ mkName base (c + 1 + k2) ∉ used :=
        ⟨k1, by omega, by have : c + 1 + k1 = c + (k1 + 1) := by omega
                          rw [this]; exact hfree⟩
      obtain ⟨k0, heq, hfr, hall⟩ := ih (c + 1) hex1
      refine ⟨k0 + 1, ?_, ?_, ?_⟩
      · simp only [allocAux, if_pos hc]
        rw [heq]
        congr 1
        omega
      · have : c + (k0 + 1) = c + 1 + k0 := by omega
        rw [this]; exact hfr
      · intro j hj
        cases j with
        | zero => simpa using hc
        | succ j1 =>
          have : c + (j1 + 1) = c + 1 + j1 := by omega
          rw [this]
          exact hall j1 (by omega)
    · exact ⟨0, by simp [allocAux, hc], by simpa using hc, by omega⟩

/-- Full characterization of the name-uniquification loop: it returns the
candidate with the least counter that is not already used. -/
theorem alloc_spec (used : List String) (base : String) :
    ∃ k, alloc used base = mkName base k ∧ mkName base k ∉ used ∧
      ∀ j < k, mkName base j ∈ used := by
  obtain ⟨k, hk, hfree⟩ := exists_mkName_not_mem used base
  have := allocAux_found used base (used.length + 1) 0 ⟨k, by omega, by simpa using hfree⟩
  simpa [alloc] using this

theorem alloc_not_mem (used : List String) (base : String) : alloc used base ∉ used := by
  obtain ⟨k, heq, hfree, _⟩ := alloc_spec used base
  rw [heq]; exact hfree

theorem alloc_eq_base (used : List String) (base : String) (h : base ∉ used) :
    alloc used base = base := by
  obtain ⟨k, heq, _, hall⟩ := alloc_spec used base
  rcases Nat.eq_zero_or_pos k with h0 | hpos
  · rw [heq, h0]; rfl
  · exact absurd (by simpa [mkName] using hall 0 hpos) h

/-! ### Association-list facts (Python dict membership and assignment) -/

theorem alookupP_eq_none {α β : Type} [DecidableEq α] :
    ∀ (l : List (α × β)) (k : α), alookupP l k = none ↔ k ∉ l.map Prod.fst := by
  intro l k
  induction l with
  | nil => simp [alookupP]
  | cons p rest ih =>
    obtain ⟨k0, v0⟩ := p
    simp only [alookupP, List.map_cons, List.mem_cons]
    by_cases h : k0 = k
    · subst h; simp
    · simp only [if_neg h, ih]
      constructor
      · intro hn hor
        rcases hor with h1 | h2
        · exact h h1.symm
        · exact hn h2
      · intro hn h2
        exact hn (Or.inr h2)

theorem alookupP_mem {α β : Type} [DecidableEq α] :
    ∀ (l : List (α × β)) (k : α) (v : β), alookupP l k = some v → (k, v) ∈ l := by
  intro l k v
  induction l with
  | nil => simp [alookupP]
  | cons p rest ih =>
    obtain ⟨k0, v0⟩ := p
    simp only [alookupP, List.mem_cons]
    by_cases h : k0 = k
    · subst h
      intro hv
      simp at hv
      subst hv
      exact Or.inl rfl
    · intro hv
      rw [if_neg h] at hv
      exact Or.inr (ih hv)

theorem dinsert_eq_append {α β : Type} [DecidableEq α] :
    ∀ (l : List (α × β)) (k : α) (v : β), alookupP l k = none → dinsert l k v = l ++ [(k, v)] := by
  intro l k v
  induction l with
  | nil => intro _; simp [dinsert]
  | cons p rest ih =>
    obtain ⟨k0, v0⟩ := p
    intro hnone
    simp only [alookupP] at hnone
    by_cases h : k0 = k
    · rw [if_pos h] at hnone; cases hnone
    · rw [if_neg h] at hnone
      simp only [dinsert, if_neg h, List.cons_append, List.cons.injEq, true_and]
      exact ih hnone

/-! ### One-step unfolding lemmas for the fueled traversal -/

theorem infer_typeF_null (fuel : Nat) (fn : Option String) (s : St) :
    infer_typeF (fuel + 1) J.null fn s = ("Optional[Any]", [], s) := rfl

theorem infer_typeF_bool (fuel : Nat) (b : Bool) (fn : Option String) (s : St) :
    infer_typeF (fuel + 1) (J.bool b) fn s = ("bool", [], s) := rfl

theorem infer_typeF_int (fuel : Nat) (n : Int) (fn : Option String) (s : St) :
    infer_typeF (fuel + 1) (J.int n) fn s = ("int", [], s) := rfl

theorem infer_typeF_flt (fuel : Nat) (x : Int) (fn : Option String) (s : St) :
    infer_typeF (fuel + 1) (J.flt x) fn s = ("float", [], s) := rfl

theorem infer_typeF_str (fuel : Nat) (t : String) (fn : Option String) (s : St) :
    infer_typeF (fuel + 1) (J.str t) fn s = ("str", [], s) := rfl

theorem infer_typeF_arr_nil (fuel : Nat) (fn : Option String) (s : St) :
    infer_typeF (fuel + 1) (J.arr []) fn s = ("List[Any]", [], s) := rfl

theorem infer_typeF_arr_cons (fuel : Nat) (x : J) (xs : List J) (fn : Option String) (s : St) :
    infer_typeF (fuel + 1) (J.arr (x :: xs)) fn s =
      (renderListType (infer_itemsF fuel (x :: xs) (itemNameOf fn) s).1,
       (infer_itemsF fuel (x :: xs) (itemNameOf fn) s).2.1,
       (infer_itemsF fuel (x :: xs) (itemNameOf fn) s).2.2) := rfl

theorem infer_typeF_obj_hit (fuel : Nat) (o : List (String × J)) (fn : Option String) (s : St)
    (n : String) (h : alookupP s.smap (sigOf o) = some n) :
    infer_typeF (fuel + 1) (J.obj o) fn s = (n, [(n, s.stack.contains n)], s) := by
  simp [infer_typeF, h, pyIsBool, pyIsInt, pyIsFloat, pyIsStr, pyIsNone]

theorem infer_typeF_obj_miss (fuel : Nat) (o : List (String × J)) (fn : Option String) (s : St)
    (h : alookupP s.smap (sigOf o) = none) :
    infer_typeF (fuel + 1) (J.obj o) fn s =
      (alloc (usedNames s) (baseNameOf fn), [(alloc (usedNames s) (baseNameOf fn), false)],
       popSt (gen_fieldsF fuel o
           (pushedSt s (sigOf o) (alloc (usedNames s) (baseNameOf fn)))).2
         (alloc (usedNames s) (baseNameOf fn))
         (gen_fieldsF fuel o
           (pushedSt s (sigOf o) (alloc (usedNames s) (baseNameOf fn)))).1
         s.stack) := by
  simp [infer_typeF, h, pyIsBool, pyIsInt, pyIsFloat, pyIsStr, pyIsNone]

theorem infer_itemsF_cons (fuel : Nat) (x : J) (xs : List J) (fn : Option String) (s : St) :
    infer_itemsF (fuel + 1) (x :: xs) fn s =
      ((infer_typeF fuel x fn s).1 ::
         (infer_itemsF fuel xs fn (infer_typeF fuel x fn s).2.2).1,
       (infer_typeF fuel x fn s).2.1 ++
         (infer_itemsF fuel xs fn (infer_typeF fuel x fn s).2.2).2.1,
       (infer_itemsF fuel xs fn (infer_typeF fuel x fn s).2.2).2.2) := rfl

/-- The `__post_init__` conversion entry computed for one field
(src/generator.py lines 169-188), naming the inline match inside
`gen_fieldsF`. -/
def convStep (fuel : Nat) (key : String) (v : J) (typ : String) (s1 : St) :
    Option (String × Bool) × List Ref × St :=
  match v with
  | .arr (x :: _) =>
    if pyIsDict x then (some (extractItemType typ, true), ([] : List Ref), s1)
    else (none, [], s1)
  | .obj _ =>
    match infer_typeF fuel v (some key) s1 with
    | (sub, r2, s2) => (some (sub, false), r2, s2)
  | _ => (none, [], s1)

theorem gen_fieldsF_nil (fuel : Nat) (s : St) : gen_fieldsF (fuel + 1) [] s = ([], s) := rfl

theorem gen_fieldsF_cons (fuel : Nat) (key : String) (v : J) (rest : List (String × J)) (s : St) :
    gen_fieldsF (fuel + 1) ((key, v) :: rest) s =
      (let t1 := infer_typeF fuel v (some key) s
       let c := convStep fuel key v t1.1 t1.2.2
       let wtyp :=
         if strContains t1.1 "Optional" || t1.1 == "Any" then "Optional[" ++ t1.1 ++ "]"
         else t1.1
       let fld : FieldDef := ⟨key, wtyp, v, c.1, t1.2.1 ++ c.2.1⟩
       let g := gen_fieldsF fuel rest c.2.2
       (fld :: g.1, g.2)) := rfl

theorem infer_typeF_zero (v : J) (fn : Option String) (s : St) :
    infer_typeF 0 v fn s = ("", [], s) := rfl

theorem infer_itemsF_zero (l : List J) (fn : Option String) (s : St) :
    infer_itemsF 0 l fn s = ([], [], s) := rfl

theorem infer_itemsF_nil (fuel : Nat) (fn : Option String) (s : St) :
    infer_itemsF (fuel + 1) [] fn s = ([], [], s) := rfl

theorem gen_fieldsF_zero (o : List (String × J)) (s : St) : gen_fieldsF 0 o s = ([], s) := rfl

/-! ### Traversal invariants -/

/-- Soundness of a ghost reference list relative to a final state and the
stack at the time the references were created: a reference not tagged as
an ancestor hit names an already-completed definition; a tagged one names
a definition that was in progress. -/
def RefsOk (stk : List String) (s1 : St) (rs : List Ref) : Prop :=
  ∀ r ∈ rs, (r.2 = false → r.1 ∈ names s1) ∧ (r.2 = true → r.1 ∈ stk)

/-- The state invariant maintained by the whole traversal. -/
structure StInv (s : St) : Prop where
  classesNC : ∀ n ∈ names s, n ∈ s.nameCounts
  smapNC : ∀ p ∈ s.smap, p.2 ∈ s.nameCounts
  stackNC : ∀ n ∈ s.stack, n ∈ s.nameCounts
  stackNotDone : ∀ n ∈ s.stack, n ∉ names s
  keysNodup : (s.smap.map Prod.fst).Nodup
  valsNodup : (s.smap.map Prod.snd).Nodup
  namesNodup : (names s).Nodup
  smapReach : ∀ p ∈ s.smap, p.2 ∈ names s ∨ p.2 ∈ s.stack
  namesReg : ∀ n ∈ names s, n ∈ s.smap.map Prod.snd
  stackNodup : s.stack.Nodup
  refInv : ∀ i, (hi : i < s.classes.length) → ∀ f ∈ (s.classes.get ⟨i, hi⟩).2.fields,
    ∀ r ∈ f.refs,
      (r.2 = false → ∃ j, ∃ hj : j < s.classes.length, j < i ∧ (s.classes.get ⟨j, hj⟩).1 = r.1) ∧
      (r.2 = true → r.1 ∈ s.stack ∨ r.1 ∈ names s)

/-- What one traversal call guarantees about how the state evolved:
`classes` and `structure_map` only grow at the end, `name_counts` only
grows, and the ghost stack is restored. -/
structure PostS (s s1 : St) : Prop where
  classesExt : ∃ d, s1.classes = s.classes ++ d
  smapExt : ∃ d, s1.smap = s.smap ++ d
  ncMono : ∀ n ∈ s.nameCounts, n ∈ s1.nameCounts
  stackEq : s1.stack = s.stack

theorem PostS.refl (s : St) : PostS s s :=
  ⟨⟨[], by simp⟩, ⟨[], by simp⟩, fun _ h => h, rfl⟩

theorem PostS.trans {s1 s2 s3 : St} (h1 : PostS s1 s2) (h2 : PostS s2 s3) : PostS s1 s3 := by
  obtain ⟨⟨d1, hc1⟩, ⟨e1, hs1⟩, hn1, hk1⟩ := h1
  obtain ⟨⟨d2, hc2⟩, ⟨e2, hs2⟩, hn2, hk2⟩ := h2
  exact ⟨⟨d1 ++ d2, by rw [hc2, hc1, List.append_assoc]⟩,
         ⟨e1 ++ e2, by rw [hs2, hs1, List.append_assoc]⟩,
         fun n h => hn2 n (hn1 n h), by rw [hk2, hk1]⟩

theorem PostS.namesMono {s s1 : St} (h : PostS s s1) : ∀ n ∈ names s, n ∈ names s1 := by
  obtain ⟨⟨d, hc⟩, _, _, _⟩ := h
  intro n hn
  simp [names, hc]
  simp [names] at hn
  exact Or.inl hn

theorem PostS.smapMono {s s1 : St} (h : PostS s s1) : ∀ p ∈ s.smap, p ∈ s1.smap := by
  obtain ⟨_, ⟨d, hs⟩, _, _⟩ := h
  intro p hp
  rw [hs]
  exact List.mem_append_left _ hp

theorem RefsOk.mono {stk : List String} {s1 s2 : St} {rs : List Ref}
    (h : RefsOk stk s1 rs) (hp : PostS s1 s2) : RefsOk stk s2 rs := by
  intro r hr
  exact ⟨fun hf => hp.namesMono _ ((h r hr).1 hf), (h r hr).2⟩

theorem RefsOk.append {stk : List String} {s : St} {r1 r2 : List Ref}
    (h1 : RefsOk stk s r1) (h2 : RefsOk stk s r2) : RefsOk stk s (r1 ++ r2) := by
  intro r hr
  rcases List.mem_append.mp hr with h | h
  · exact h1 r h
  · exact h2 r h

theorem RefsOk.nil {stk : List String} {s : St} : RefsOk stk s [] := by
  intro r hr
  cases hr

theorem stInv_st0 : StInv st0 := by
  constructor <;> simp [st0, names]

theorem contains_iff (l : List String) (a : String) : l.contains a = true ↔ a ∈ l := by
  induction l with
  | nil => simp
  | cons x xs ih => simp [List.contains] at ih ⊢

theorem mem_fst_iff_get {α β : Type} (l : List (α × β)) (a : α) :
    a ∈ l.map Prod.fst ↔ ∃ j, ∃ hj : j < l.length, (l.get ⟨j, hj⟩).1 = a := by
  constructor
  · intro h
    obtain ⟨p, hp, he⟩ := List.mem_map.mp h
    obtain ⟨⟨j, hj⟩, hg⟩ := List.mem_iff_get.mp hp
    exact ⟨j, hj, by rw [hg, he]⟩
  · rintro ⟨j, hj, he⟩
    exact List.mem_map.mpr ⟨l.get ⟨j, hj⟩, List.get_mem l j hj, he⟩

theorem usedNames_split {s : St} {n : String} (h : n ∉ usedNames s) :
    n ∉ names s ∧ n ∉ s.nameCounts := by
  constructor
  · exact fun hm => h (List.mem_append_left _ hm)
  · exact fun hm => h (List.mem_append_right _ hm)

theorem pushedSt_smap (s : St) (sg : List (String × String)) (cname : String)
    (hmiss : alookupP s.smap sg = none) :
    (pushedSt s sg cname).smap = s.smap ++ [(sg, cname)] := by
  simp [pushedSt, dinsert_eq_append _ _ _ hmiss]

theorem pushedSt_nc (s : St) (sg : List (String × String)) (cname : String)
    (hc : cname ∉ s.nameCounts) :
    (pushedSt s sg cname).nameCounts = s.nameCounts ++ [cname] := by
  simp [pushedSt, hc]

theorem stInv_pushedSt (s : St) (sg : List (String × String)) (cname : String)
    (hInv : StInv s) (hmiss : alookupP s.smap sg = none) (hfresh : cname ∉ usedNames s) :
    StInv (pushedSt s sg cname) := by
  obtain ⟨hfN, hfC⟩ := usedNames_split hfresh
  have hsgnew : sg ∉ s.smap.map Prod.fst := (alookupP_eq_none _ _).mp hmiss
  have hsmap := pushedSt_smap s sg cname hmiss
  have hnc := pushedSt_nc s sg cname hfC
  have hclasses : (pushedSt s sg cname).classes = s.classes := rfl
  have hstack : (pushedSt s sg cname).stack = cname :: s.stack := rfl
  have hnames : names (pushedSt s sg cname) = names s := rfl
  constructor
  · rw [hnames, hnc]
    intro n hn
    exact List.mem_append_left _ (hInv.classesNC n hn)
  · rw [hsmap, hnc]
    intro p hp
    rcases List.mem_append.mp hp with h | h
    · exact List.mem_append_left _ (hInv.smapNC p h)
    · simp at h
      subst h
      simp
  · rw [hstack, hnc]
    intro n hn
    rcases List.mem_cons.mp hn with h | h
    · subst h; simp
    · exact List.mem_append_left _ (hInv.stackNC n h)
  · rw [hstack, hnames]
    intro n hn
    rcases List.mem_cons.mp hn with h | h
    · subst h; exact hfN
    · exact hInv.stackNotDone n h
  · rw [hsmap]
    rw [List.map_append, List.nodup_append]
    refine ⟨hInv.keysNodup, by simp, ?_⟩
    intro a ha hb
    simp at hb
    subst hb
    exact hsgnew ha
  · rw [hsmap]
    rw [List.map_append, List.nodup_append]
    refine ⟨hInv.valsNodup, by simp, ?_⟩
    intro a ha hb
    simp at hb
    subst hb
    obtain ⟨p, hp, he⟩ := List.mem_map.mp ha
    exact hfC (he ▸ hInv.smapNC p hp)
  · rw [hnames]; exact hInv.namesNodup
  · rw [hsmap, hnames, hstack]
    intro p hp
    rcases List.mem_append.mp hp with h | h
    · rcases hInv.smapReach p h with h1 | h1
      · exact Or.inl h1
      · exact Or.inr (List.mem_cons_of_mem _ h1)
    · simp at h
      subst h
      exact Or.inr (List.mem_cons_self _ _)
  · rw [hnames, hsmap]
    intro n hn
    rw [List.map_append]
    exact List.mem_append_left _ (hInv.namesReg n hn)
  · rw [hstack]
    refine List.Nodup.cons ?_ hInv.stackNodup
    intro hmem
    exact hfC (hInv.stackNC cname hmem)
  · rw [hclasses, hstack, hnames]
    intro i hi f hf r hr
    refine ⟨(hInv.refInv i hi f hf r hr).1, ?_⟩
    intro ht
    rcases (hInv.refInv i hi f hf r hr).2 ht with h | h
    · exact Or.inl (List.mem_cons_of_mem _ h)
    · exact Or.inr h

theorem popSt_classes (s2 : St) (cname : String) (fs : List FieldDef) (ret : List String)
    (hnew : cname ∉ names s2) :
    (popSt s2 cname fs ret).classes = s2.classes ++ [(cname, ⟨fs⟩)] := by
  simp [popSt, dinsert_eq_append _ _ _ ((alookupP_eq_none _ _).mpr hnew)]

theorem stInv_popSt (s s2 : St) (cname : String) (fs : List FieldDef)
    (hInv2 : StInv s2)
    (hstk2 : s2.stack = cname :: s.stack)
    (hreg : cname ∈ s2.smap.map Prod.snd)
    (hRefs : ∀ f ∈ fs, RefsOk (cname :: s.stack) s2 f.refs) :
    StInv (popSt s2 cname fs s.stack) := by
  have hcs : cname ∈ s2.stack := by rw [hstk2]; exact List.mem_cons_self _ _
  have hnew : cname ∉ names s2 := hInv2.stackNotDone cname hcs
  have hcnotst : cname ∉ s.stack := by
    have := hInv2.stackNodup
    rw [hstk2] at this
    exact (List.nodup_cons.mp this).1
  have hcl := popSt_classes s2 cname fs s.stack hnew
  have hnames3 : names (popSt s2 cname fs s.stack) = names s2 ++ [cname] := by
    simp [names, hcl]
  have hsm : (popSt s2 cname fs s.stack).smap = s2.smap := rfl
  have hnc : (popSt s2 cname fs s.stack).nameCounts = s2.nameCounts := rfl
  have hst : (popSt s2 cname fs s.stack).stack = s.stack := rfl
  constructor
  · rw [hnames3, hnc]
    intro n hn
    rcases List.mem_append.mp hn with h | h
    · exact hInv2.classesNC n h
    · simp at h
      rw [h]
      exact hInv2.stackNC cname hcs
  · rw [hsm, hnc]; exact hInv2.smapNC
  · rw [hst, hnc]
    intro n hn
    exact hInv2.stackNC n (by rw [hstk2]; exact List.mem_cons_of_mem _ hn)
  · rw [hst, hnames3]
    intro n hn
    have hn2 : n ∈ s2.stack := by rw [hstk2]; exact List.mem_cons_of_mem _ hn
    have hne : n ≠ cname := fun h => hcnotst (h ▸ hn)
    intro hmem
    rcases List.mem_append.mp hmem with h | h
    · exact hInv2.stackNotDone n hn2 h
    · simp at h
      exact hne h
  · rw [hsm]; exact hInv2.keysNodup
  · rw [hsm]; exact hInv2.valsNodup
  · rw [hnames3]
    rw [List.nodup_append]
    exact ⟨hInv2.namesNodup, by simp, by intro a ha hb; simp at hb; subst hb; exact hnew ha⟩
  · rw [hsm, hnames3, hst]
    intro p hp
    rcases hInv2.smapReach p hp with h | h
    · exact Or.inl (List.mem_append_left _ h)
    · rw [hstk2] at h
      rcases List.mem_cons.mp h with h1 | h1
      · exact Or.inl (by rw [h1]; simp)
      · exact Or.inr h1
  · rw [hsm, hnames3]
    intro n hn
    rcases List.mem_append.mp hn with h | h
    · exact hInv2.namesReg n h
    · simp at h
      rw [h]
      exact hreg
  · rw [hst]
    have := hInv2.stackNodup
    rw [hstk2] at this
    exact (List.nodup_cons.mp this).2
  · rw [hcl, hst, hnames3]
    intro i hi f hf r hr
    rw [List.length_append, List.length_singleton] at hi
    by_cases hlt : i < s2.classes.length
    · have hget : ((s2.classes ++ [(cname, (⟨fs⟩ : RecordDef))]).get
          ⟨i, by rw [List.length_append, List.length_singleton]; omega⟩)
          = s2.classes.get ⟨i, hlt⟩ := List.get_append i hlt
      rw [hget] at hf
      refine ⟨?_, ?_⟩
      · intro hfalse
        obtain ⟨j, hj, hji, hje⟩ := (hInv2.refInv i hlt f hf r hr).1 hfalse
        refine ⟨j, by rw [List.length_append, List.length_singleton]; omega, hji, ?_⟩
        rw [List.get_append j hj]
        exact hje
      · intro htrue
        rcases (hInv2.refInv i hlt f hf r hr).2 htrue with h | h
        · rw [hstk2] at h
          rcases List.mem_cons.mp h with h1 | h1
          · exact Or.inr (by rw [h1]; simp)
          · exact Or.inl h1
        · exact Or.inr (List.mem_append_left _ h)
    · have hieq : i = s2.classes.length := by omega
      subst hieq
      have hget : ((s2.classes ++ [(cname, (⟨fs⟩ : RecordDef))]).get
          ⟨s2.classes.length, by simp⟩) = (cname, (⟨fs⟩ : RecordDef)) := by
        simp [List.get_eq_getElem]
      rw [hget] at hf
      have hfr := hRefs f hf r hr
      refine ⟨?_, ?_⟩
      · intro hfalse
        have hm : r.1 ∈ names s2 := hfr.1 hfalse
        obtain ⟨j, hj, hje⟩ := (mem_fst_iff_get s2.classes r.1).mp hm
        refine ⟨j, by rw [List.length_append, List.length_singleton]; omega, hj, ?_⟩
        rw [List.get_append j hj]
        exact hje
      · intro htrue
        have hm : r.1 ∈ cname :: s.stack := hfr.2 htrue
        rcases List.mem_cons.mp hm with h | h
        · exact Or.inr (by rw [h]; simp)
        · exact Or.inl h

theorem master_obj_miss (fuel : Nat)
    (ihF : ∀ o s fs s1, gen_fieldsF fuel o s = (fs, s1) → StInv s →
      StInv s1 ∧ PostS s s1 ∧ ∀ f ∈ fs, RefsOk s.stack s1 f.refs)
    (o : List (String × J)) (fn : Option String) (s : St) (t : String) (rs : List Ref) (s1 : St)
    (heq : infer_typeF (fuel + 1) (J.obj o) fn s = (t, rs, s1))
    (hInv : StInv s) (hmiss : alookupP s.smap (sigOf o) = none) :
    StInv s1 ∧ PostS s s1 ∧ RefsOk s.stack s1 rs := by
  have hfresh := alloc_not_mem (usedNames s) (baseNameOf fn)
  rw [infer_typeF_obj_miss fuel o fn s hmiss] at heq
  set cname := alloc (usedNames s) (baseNameOf fn) with hcn
  set ps := pushedSt s (sigOf o) cname with hps
  rcases hg : gen_fieldsF fuel o ps with ⟨fs, s2⟩
  rw [hg] at heq
  have ht := congrArg (fun p => p.1) heq
  have hrs := congrArg (fun p => p.2.1) heq
  have hs1 := congrArg (fun p => p.2.2) heq
  simp only at ht hrs hs1
  subst ht hrs hs1
  obtain ⟨hfN, hfC⟩ := usedNames_split hfresh
  have hInvPs : StInv ps := stInv_pushedSt s (sigOf o) cname hInv hmiss hfresh
  obtain ⟨hInv2, hPost2, hRefs2⟩ := ihF o ps fs s2 hg hInvPs
  have hpsStack : ps.stack = cname :: s.stack := rfl
  have hstk2 : s2.stack = cname :: s.stack := by rw [hPost2.stackEq, hpsStack]
  have hreg : cname ∈ s2.smap.map Prod.snd := by
    have hmem : (sigOf o, cname) ∈ ps.smap := by
      rw [hps, pushedSt_smap s (sigOf o) cname hmiss]
      simp
    exact List.mem_map.mpr ⟨_, hPost2.smapMono _ hmem, rfl⟩
  have hRefs2s : ∀ f ∈ fs, RefsOk (cname :: s.stack) s2 f.refs := by
    intro f hf
    have := hRefs2 f hf
    rwa [hpsStack] at this
  have hInv3 : StInv (popSt s2 cname fs s.stack) :=
    stInv_popSt s s2 cname fs hInv2 hstk2 hreg hRefs2s
  have hcs : cname ∈ s2.stack := by rw [hstk2]; exact List.mem_cons_self _ _
  have hnew : cname ∉ names s2 := hInv2.stackNotDone cname hcs
  have hcl := popSt_classes s2 cname fs s.stack hnew
  have hnames3 : names (popSt s2 cname fs s.stack) = names s2 ++ [cname] := by
    simp [names, hcl]
  have hPost3 : PostS s (popSt s2 cname fs s.stack) := by
    obtain ⟨⟨d, hd⟩, ⟨e, he⟩, hn, hk⟩ := hPost2
    have hpscl : ps.classes = s.classes := rfl
    have hpsnc : ps.nameCounts = s.nameCounts ++ [cname] := pushedSt_nc s (sigOf o) cname hfC
    refine ⟨⟨d ++ [(cname, ⟨fs⟩)], ?_⟩, ⟨(sigOf o, cname) :: e, ?_⟩, ?_, rfl⟩
    · rw [hcl, hd, hpscl, List.append_assoc]
    · have : (popSt s2 cname fs s.stack).smap = s2.smap := rfl
      rw [this, he, hps, pushedSt_smap s (sigOf o) cname hmiss, List.append_assoc]
      rfl
    · intro n hn2
      have : (popSt s2 cname fs s.stack).nameCounts = s2.nameCounts := rfl
      rw [this]
      exact hn n (by rw [hpsnc]; exact List.mem_append_left _ hn2)
  have hRefsOut : RefsOk s.stack (popSt s2 cname fs s.stack) [(cname, false)] := by
    intro r hr
    simp at hr
    rw [hr]
    refine ⟨fun _ => ?_, fun hx => by cases hx⟩
    rw [hnames3]
    simp
  exact ⟨hInv3, hPost3, hRefsOut⟩

theorem convStep_spec (fuel : Nat)
    (ihT : ∀ v fn s t rs s1, infer_typeF fuel v fn s = (t, rs, s1) → StInv s →
      StInv s1 ∧ PostS s s1 ∧ RefsOk s.stack s1 rs)
    (key : String) (v : J) (typ : String) (s2 : St) (conv : Option (String × Bool))
    (r2 : List Ref) (s3 : St)
    (h : convStep fuel key v typ s2 = (conv, r2, s3)) (hInv : StInv s2) :
    StInv s3 ∧ PostS s2 s3 ∧ RefsOk s2.stack s3 r2 := by
  cases v with
  | obj o =>
    simp only [convStep] at h
    rcases h2 : infer_typeF fuel (J.obj o) (some key) s2 with ⟨sub, rr, ss⟩
    rw [h2] at h
    cases h
    exact ihT _ _ _ _ _ _ h2 hInv
  | arr l =>
    cases l with
    | nil =>
      simp only [convStep] at h
      cases h
      exact ⟨hInv, PostS.refl _, RefsOk.nil⟩
    | cons x xs =>
      simp only [convStep] at h
      by_cases hd : pyIsDict x = true
      · rw [if_pos hd] at h
        cases h
        exact ⟨hInv, PostS.refl _, RefsOk.nil⟩
      · rw [if_neg hd] at h
        cases h
        exact ⟨hInv, PostS.refl _, RefsOk.nil⟩
  | null =>
    simp only [convStep] at h
    cases h
    exact ⟨hInv, PostS.refl _, RefsOk.nil⟩
  | bool b =>
    simp only [convStep] at h
    cases h
    exact ⟨hInv, PostS.refl _, RefsOk.nil⟩
  | int n =>
    simp only [convStep] at h
    cases h
    exact ⟨hInv, PostS.refl _, RefsOk.nil⟩
  | flt x =>
    simp only [convStep] at h
    cases h
    exact ⟨hInv, PostS.refl _, RefsOk.nil⟩
  | str t2 =>
    simp only [convStep] at h
    cases h
    exact ⟨hInv, PostS.refl _, RefsOk.nil⟩

/-- The central preservation theorem: every traversal call preserves the
state invariant, only extends `classes`/`structure_map`/`name_counts`,
restores the ghost stack, and returns sound references. -/
theorem master (fuel : Nat) :
    (∀ v fn s t rs s1, infer_typeF fuel v fn s = (t, rs, s1) → StInv s →
      StInv s1 ∧ PostS s s1 ∧ RefsOk s.stack s1 rs) ∧
    (∀ l fn s ts rs s1, infer_itemsF fuel l fn s = (ts, rs, s1) → StInv s →
      StInv s1 ∧ PostS s s1 ∧ RefsOk s.stack s1 rs) ∧
    (∀ o s fs s1, gen_fieldsF fuel o s = (fs, s1) → StInv s →
      StInv s1 ∧ PostS s s1 ∧ ∀ f ∈ fs, RefsOk s.stack s1 f.refs) := by
  induction fuel with
  | zero =>
    refine ⟨?_, ?_, ?_⟩
    · intro v fn s t rs s1 heq hInv
      rw [infer_typeF_zero] at heq
      cases heq
      exact ⟨hInv, PostS.refl s, RefsOk.nil⟩
    · intro l fn s ts rs s1 heq hInv
      rw [infer_itemsF_zero] at heq
      cases heq
      exact ⟨hInv, PostS.refl s, RefsOk.nil⟩
    · intro o s fs s1 heq hInv
      rw [gen_fieldsF_zero] at heq
      cases heq
      exact ⟨hInv, PostS.refl s, fun f hf => by cases hf⟩
  | succ fuel ih =>
    obtain ⟨ihT, ihI, ihF⟩ := ih
    refine ⟨?_, ?_, ?_⟩
    · intro v fn s t rs s1 heq hInv
      cases v with
      | null =>
        rw [infer_typeF_null] at heq
        cases heq
        exact ⟨hInv, PostS.refl s, RefsOk.nil⟩
      | bool b =>
        rw [infer_typeF_bool] at heq
        cases heq
        exact ⟨hInv, PostS.refl s, RefsOk.nil⟩
      | int n =>
        rw [infer_typeF_int] at heq
        cases heq
        exact ⟨hInv, PostS.refl s, RefsOk.nil⟩
      | flt x =>
        rw [infer_typeF_flt] at heq
        cases heq
        exact ⟨hInv, PostS.refl s, RefsOk.nil⟩
      | str t2 =>
        rw [infer_typeF_str] at heq
        cases heq
        exact ⟨hInv, PostS.refl s, RefsOk.nil⟩
      | arr l =>
        cases l with
        | nil =>
          rw [infer_typeF_arr_nil] at heq
          cases heq
          exact ⟨hInv, PostS.refl s, RefsOk.nil⟩
        | cons x xs =>
          rw [infer_typeF_arr_cons] at heq
          rcases hI : infer_itemsF fuel (x :: xs) (itemNameOf fn) s with ⟨ts, rs2, s2⟩
          rw [hI] at heq
          cases heq
          exact ⟨(ihI _ _ _ _ _ _ hI hInv).1, (ihI _ _ _ _ _ _ hI hInv).2.1,
                 (ihI _ _ _ _ _ _ hI hInv).2.2⟩
      | obj o =>
        rcases hl : alookupP s.smap (sigOf o) with _ | n
        · exact master_obj_miss fuel ihF o fn s t rs s1 heq hInv hl
        · rw [infer_typeF_obj_hit fuel o fn s n hl] at heq
          have ht := congrArg (fun p => p.1) heq
          have hrs := congrArg (fun p => p.2.1) heq
          have hs1 := congrArg (fun p => p.2.2) heq
          simp only at ht hrs hs1
          rw [← hs1, ← hrs]
          refine ⟨hInv, PostS.refl s, ?_⟩
          intro r hr
          rw [List.mem_singleton] at hr
          subst hr
          refine ⟨?_, ?_⟩
          · intro hfalse
            replace hfalse : s.stack.contains n = false := hfalse
            have hnmem : n ∉ s.stack := by
              intro hmem
              rw [(contains_iff _ _).mpr hmem] at hfalse
              cases hfalse
            have hmem := alookupP_mem _ _ _ hl
            rcases hInv.smapReach _ hmem with h | h
            · exact h
            · exact absurd h hnmem
          · intro htrue
            replace htrue : s.stack.contains n = true := htrue
            exact (contains_iff _ _).mp htrue
    · intro l fn s ts rs s1 heq hInv
      cases l with
      | nil =>
        rw [infer_itemsF_nil] at heq
        cases heq
        exact ⟨hInv, PostS.refl s, RefsOk.nil⟩
      | cons x xs =>
        rw [infer_itemsF_cons] at heq
        rcases h1 : infer_typeF fuel x fn s with ⟨t1, r1, s2⟩
        rw [h1] at heq
        rcases h2 : infer_itemsF fuel xs fn s2 with ⟨ts2, r2, s3⟩
        rw [h2] at heq
        cases heq
        obtain ⟨hi1, hp1, hr1⟩ := ihT _ _ _ _ _ _ h1 hInv
        obtain ⟨hi2, hp2, hr2⟩ := ihI _ _ _ _ _ _ h2 hi1
        refine ⟨hi2, hp1.trans hp2, ?_⟩
        refine RefsOk.append (hr1.mono hp2) ?_
        rwa [hp1.stackEq] at hr2
    · intro o s fs s1 heq hInv
      cases o with
      | nil =>
        rw [gen_fieldsF_nil] at heq
        cases heq
        exact ⟨hInv, PostS.refl s, fun f hf => by cases hf⟩
      | cons p rest =>
        obtain ⟨key, v⟩ := p
        rw [gen_fieldsF_cons] at heq
        simp only at heq
        rcases h1 : infer_typeF fuel v (some key) s with ⟨typ, r1, s2⟩
        rw [h1] at heq
        rcases h2 : convStep fuel key v typ s2 with ⟨conv, r2, s3⟩
        rw [h2] at heq
        rcases h3 : gen_fieldsF fuel rest s3 with ⟨fs3, s4⟩
        rw [h3] at heq
        cases heq
        obtain ⟨hi1, hp1, hr1⟩ := ihT _ _ _ _ _ _ h1 hInv
        obtain ⟨hi2, hp2, hr2⟩ := convStep_spec fuel ihT key v typ s2 conv r2 s3 h2 hi1
        obtain ⟨hi3, hp3, hr3⟩ := ihF _ _ _ _ h3 hi2
        refine ⟨hi3, (hp1.trans hp2).trans hp3, ?_⟩
        intro f hf
        rcases List.mem_cons.mp hf with hfl | hfl
        · rw [hfl]
          refine RefsOk.append ((hr1.mono hp2).mono hp3) ?_
          have : RefsOk s.stack s3 r2 := by rwa [hp1.stackEq] at hr2
          exact this.mono hp3
        · have := hr3 f hfl
          rwa [hp2.stackEq, hp1.stackEq] at this

/-! ### Run-level corollaries of the master theorem -/

theorem generate_class_st0 (doc : List (String × J)) :
    StInv (generate_class doc st0).2 ∧ PostS st0 (generate_class doc st0).2 ∧
    ∀ f ∈ (generate_class doc st0).1.fields, RefsOk [] (generate_class doc st0).2 f.refs := by
  rcases hg : gen_fieldsF (osize doc + 1) doc st0 with ⟨fs, s1⟩
  have h := (master (osize doc + 1)).2.2 doc st0 fs s1 hg stInv_st0
  have h1 : generate_class doc st0 = (⟨fs⟩, s1) := by
    simp [generate_class, hg]
  rw [h1]
  exact ⟨h.1, h.2.1, fun f hf => h.2.2 f hf⟩

theorem main_run_stack (stem : String) (doc : List (String × J)) :
    (main_run stem doc).stack = [] := by
  have h := (generate_class_st0 doc).2.1.stackEq
  exact h

/-! ### The total code-point order on strings -/

theorem charsLe_refl : ∀ x : List Char, charsLe x x = true
  | [] => rfl
  | c :: cs => by simp [charsLe, charsLe_refl cs]

theorem charsLe_total : ∀ x y : List Char, charsLe x y = true ∨ charsLe y x = true
  | [], _ => Or.inl rfl
  | _ :: _, [] => Or.inr rfl
  | c :: cs, d :: ds => by
    by_cases h : c = d
    · subst h
      simpa [charsLe] using charsLe_total cs ds
    · rcases lt_or_gt_of_ne h with hlt | hgt
      · exact Or.inl (by simp [charsLe, h, hlt])
      · exact Or.inr (by simp [charsLe, Ne.symm h, hgt])

theorem charsLe_trans : ∀ x y z : List Char,
    charsLe x y = true → charsLe y z = true → charsLe x z = true
  | [], _, _, _, _ => rfl
  | _ :: _, [], _, h1, _ => by simp [charsLe] at h1
  | _ :: _, _ :: _, [], _, h2 => by simp [charsLe] at h2
  | c :: cs, d :: ds, e :: es, h1, h2 => by
    by_cases hcd : c = d <;> by_cases hde : d = e
    · subst hcd; subst hde
      simp [charsLe] at h1 h2 ⊢
      exact charsLe_trans cs ds es h1 h2
    · subst hcd
      simpa [charsLe, hde] using h2
    · subst hde
      simpa [charsLe, hcd] using h1
    · simp [charsLe, hcd, hde] at h1 h2
      have hce : c < e := lt_trans h1 h2
      simp [charsLe, ne_of_lt hce, hce]

theorem charsLe_antisymm : ∀ x y : List Char,
    charsLe x y = true → charsLe y x = true → x = y
  | [], [], _, _ => rfl
  | [], _ :: _, _, h2 => by simp [charsLe] at h2
  | _ :: _, [], h1, _ => by simp [charsLe] at h1
  | c :: cs, d :: ds, h1, h2 => by
    by_cases h : c = d
    · subst h
      simp [charsLe] at h1 h2
      rw [charsLe_antisymm cs ds h1 h2]
    · simp [charsLe, h, Ne.symm h] at h1 h2
      exact absurd h2 (not_lt_of_gt h1)

theorem strLeRel_total : IsTotal String (fun a b => strLe a b = true) :=
  ⟨fun a b => charsLe_total a.data b.data⟩

theorem strLeRel_trans : IsTrans String (fun a b => strLe a b = true) :=
  ⟨fun a b c h1 h2 => charsLe_trans a.data b.data c.data h1 h2⟩

theorem strLeRel_antisymm : IsAntisymm String (fun a b => strLe a b = true) :=
  ⟨fun a b h1 h2 => str_ext a b (charsLe_antisymm a.data b.data h1 h2)⟩

theorem sortStr_sorted (l : List String) :
    List.Sorted (fun a b => strLe a b = true) (sortStr l) :=
  @List.sorted_insertionSort String (fun a b => strLe a b = true) _ strLeRel_total
    strLeRel_trans l

theorem sortStr_perm (l : List String) : (sortStr l).Perm l :=
  List.perm_insertionSort _ l

theorem sortStr_canonical {l1 l2 : List String} (h : l1.Perm l2) : sortStr l1 = sortStr l2 :=
  @List.eq_of_perm_of_sorted String (fun a b => strLe a b = true) strLeRel_antisymm _ _
    ((sortStr_perm l1).trans (h.trans (sortStr_perm l2).symm))
    (sortStr_sorted l1) (sortStr_sorted l2)

theorem renderListType_eq (ts : List String) :
    renderListType ts = "List[" ++ joinSep " | " (sortStr ts.dedup) ++ "]" := by
  rcases hd : ts.dedup with _ | ⟨t, rest⟩
  · simp [renderListType, hd, sortStr, List.insertionSort, joinSep]
  · cases rest with
    | nil => simp [renderListType, hd, sortStr, List.insertionSort, List.orderedInsert, joinSep]
    | cons u rest2 => simp [renderListType, hd]

/-! ### Runtime semantics of a generated class: construction and
`__post_init__` normalization (src/generator.py lines 194-209) -/

/-- A runtime value of the generated module: a plain JSON value, a
dataclass instance (class name with its field values), or a list of
converted instances. -/
inductive RVal where
  | raw : J → RVal
  | inst : String → List (String × RVal) → RVal
  | lst : List RVal → RVal

/-- How a construction fails: an unknown constructor name (the item type
sliced from a union annotation names no class; Python fails at the same
point with a `TypeError` from calling `int(**...)`), an unexpected
keyword argument (`TypeError`), or exhausted fuel. -/
inductive PErr where
  | nameError : PErr
  | typeError : PErr
  | fuelOut : PErr

mutual
/-- `Cls(**args)`: every keyword must name a dataclass field, missing
fields take their captured defaults, then `__post_init__` converts the
flagged fields. -/
def constructRec (env : List (String × RecordDef)) : Nat → String → List (String × J) →
    Except PErr RVal
  | 0, _, _ => .error .fuelOut
  | fuel + 1, cls, args =>
    match alookup env cls with
    | none => .error .nameError
    | some rd =>
      if args.all (fun a => rd.fields.any (fun f => f.name == a.1)) then
        match constructFields env fuel args rd.fields with
        | .ok flds => .ok (.inst cls flds)
        | .error e => .error e
      else .error .typeError

def constructFields (env : List (String × RecordDef)) : Nat → List (String × J) →
    List FieldDef → Except PErr (List (String × RVal))
  | 0, _, _ => .error .fuelOut
  | _ + 1, _, [] => .ok []
  | fuel + 1, args, f :: fs =>
    match constructOne env fuel f ((alookup args f.name).getD f.dflt) with
    | .error e => .error e
    | .ok rv =>
      match constructFields env fuel args fs with
      | .error e => .error e
      | .ok rest => .ok ((f.name, rv) :: rest)

/-- The `__post_init__` conversion of one field value: an object field is
rebuilt as an instance of the recorded class; a non-empty list whose
first element is an object has every element rebuilt (a non-object
element makes `Cls(**item)` fail). -/
def constructOne (env : List (String × RecordDef)) : Nat → FieldDef → J → Except PErr RVal
  | 0, _, _ => .error .fuelOut
  | fuel + 1, f, v0 =>
    match f.conv with
    | none => .ok (.raw v0)
    | some (c, false) =>
      match v0 with
      | .obj o => constructRec env fuel c o
      | _ => .ok (.raw v0)
    | some (c, true) =>
      match v0 with
      | .arr [] => .ok (.raw (J.arr []))
      | .arr (x :: xs) =>
        if pyIsDict x then
          match constructItems env fuel c (x :: xs) with
          | .ok rs => .ok (.lst rs)
          | .error e => .error e
        else .ok (.raw (J.arr (x :: xs)))
      | _ => .ok (.raw v0)

def constructItems (env : List (String × RecordDef)) : Nat → String → List J →
    Except PErr (List RVal)
  | 0, _, _ => .error .fuelOut
  | _ + 1, _, [] => .ok []
  | fuel + 1, c, x :: xs =>
    match x with
    | .obj o =>
      match constructRec env fuel c o with
      | .error e => .error e
      | .ok rv =>
        match constructItems env fuel c xs with
        | .error e => .error e
        | .ok rest => .ok (rv :: rest)
    | _ => .error .typeError
end

/-- The classes the generated module defines: the nested ones in emission
order followed by the root class. -/
def classEnv (r : RunResult) : List (String × RecordDef) :=
  r.classes ++ [(r.rootName, r.rootDef)]

/-- `Root()`: construct the root class from its captured defaults. -/
def constructFromDefaults (r : RunResult) (fuel : Nat) : Except PErr RVal :=
  constructRec (classEnv r) fuel r.rootName []

/-- A genuine construction failure (not exhausted fuel). -/
def isCtorError : Except PErr RVal → Bool
  | .error .nameError => true
  | .error .typeError => true
  | _ => false

/-! ### The specification's full recursive structural signature -/

mutual
/-- Modelled from the spec: the structural signature of §3 — "the full
recursive structural shape of the object: for each key, the
TypeDescriptor kind of its value, computed at the same depth as the
descriptors themselves" (canonical key-ordered encoding; for arrays, the
element shape or the deduplicated union of distinct element shapes).
This is what src/generator.py does NOT compute; it is used to compare
the code's shallow signature against the spec's canonical rule. -/
def deepShapeF : Nat → J → String
  | 0, _ => ""
  | fuel + 1, v =>
    match v with
    | .null => "unknown"
    | .bool _ => "prim(bool)"
    | .int _ => "prim(int)"
    | .flt _ => "prim(float)"
    | .str _ => "prim(string)"
    | .arr [] => "list(unknown)"
    | .arr (x :: xs) =>
      match (deepShapeListF fuel (x :: xs)).dedup with
      | [e] => "list(" ++ e ++ ")"
      | es => "list(union(" ++ joinSep "," (sortStr es) ++ "))"
    | .obj o =>
      "record(" ++
        joinSep ","
          ((List.insertionSort (fun a b => strLe a.1 b.1 = true) (deepShapeObjF fuel o)).map
            (fun p => p.1 ++ ":" ++ p.2)) ++ ")"

def deepShapeListF : Nat → List J → List String
  | 0, _ => []
  | _ + 1, [] => []
  | fuel + 1, x :: xs => deepShapeF fuel x :: deepShapeListF fuel xs

def deepShapeObjF : Nat → List (String × J) → List (String × String)
  | 0, _ => []
  | _ + 1, [] => []
  | fuel + 1, (k, v) :: rest => (k, deepShapeF fuel v) :: deepShapeObjF fuel rest
end

/-- Modelled from the spec: the canonical full recursive signature with
canonical fuel. -/
def deepSig (v : J) : String := deepShapeF (jsize v + 1) v

/-! ### Concrete documents used by the claims -/

/-- The spec's deduplication example. -/
def docC1good : List (String × J) :=
  [("a", .int 1), ("b", .obj [("x", .int 1)]), ("c", .obj [("x", .int 2)])]

/-- Sibling objects with the same key set and the same immediate value
kinds (both values of `x` are objects) but different nested shapes. -/
def docC1bad : List (String × J) :=
  [("b", .obj [("x", .obj [("p", .int 1)])]), ("c", .obj [("x", .obj [("q", .int 2)])])]

/-- A document whose single field shares its PascalCase name with the
root class derived from the file stem `b`. -/
def docC2 : List (String × J) := [("b", .obj [("x", .int 1)])]

/-- Two structurally different objects both named from `foo`. -/
def docC3 : List (String × J) :=
  [("foo", .obj [("a", .int 1)]), ("x", .obj [("foo", .obj [("b", .str "s")])])]

/-- One nested object inside another. -/
def docC4 : List (String × J) := [("a", .obj [("b", .obj [("x", .int 1)])])]

/-- A document in which an inner object's shallow signature matches an
outer in-progress object's signature: the record created for the value
of `x` refers, through the registry, to the still-unfinished record for
the value of `b`. -/
def docC5 : List (String × J) :=
  [("b", .obj [("x", .obj [("y", .obj [("x", .obj [("y", .int 1)])])])])]

/-- A list mixing an object and an integer. -/
def docC6 : List (String × J) := [("l", .arr [.obj [("k", .int 1)], .int 2])]

def docU1 : List (String × J) := [("list", .arr [.int 1, .str "a"])]

def docU2 : List (String × J) := [("list", .arr [.str "a", .int 1])]

/-! ### Claims -/

theorem gen_fieldsF_names (fuel : Nat) :
    ∀ (o : List (String × J)) (s : St), osize o < fuel →
      ((gen_fieldsF fuel o s).1.map FieldDef.name) = o.map Prod.fst := by
  induction fuel with
  | zero => intro o s h; omega
  | succ fuel ih =>
    intro o s h
    cases o with
    | nil => simp [gen_fieldsF_nil]
    | cons p rest =>
      obtain ⟨key, v⟩ := p
      rw [gen_fieldsF_cons]
      simp only [osize] at h
      have hr : osize rest < fuel := by omega
      simp only [List.map_cons, List.cons.injEq]
      exact ⟨by trivial, ih rest _ hr⟩

/-- C8: the fields of every RecordDefinition produced by
`generate_class` appear in exactly the key order of the object it was
generated from; a later deduplication hit reuses the stored definition
unchanged, so the order stays that of the creating location. -/
theorem c8_field_order (o : List (String × J)) (s : St) :
    ((generate_class o s).1.fields.map FieldDef.name) = o.map Prod.fst := by
  rcases hg : gen_fieldsF (osize o + 1) o s with ⟨fs, s1⟩
  have h := gen_fieldsF_names (osize o + 1) o s (by omega)
  rw [hg] at h
  simpa [generate_class, hg] using h

/-- C9: a boolean input is always classified `bool` and never `int`,
even though Python's `isinstance(value, int)` holds for booleans
(`pyIsInt` reflects the host subclassing); the boolean check runs first
(src/generator.py lines 76-79). -/
theorem c9_bool_before_int (b : Bool) (fn : Option String) (s : St) :
    (infer_type (J.bool b) fn s).1 = "bool" ∧ pyIsInt (J.bool b) = true ∧ "bool" ≠ "int" := by
  refine ⟨rfl, rfl, ?_⟩
  decide

/-- C2 (failing input): with input file `b.json` containing
`{"b": {"x": 1}}`, the nested record takes the name `B` and the root
class name derived from the file stem is also `B`: the emitted artifact
defines two classes named `B`, so generated record names are not
pairwise distinct. -/
theorem c2_collision_eval :
    emissionOrder (main_run "b" docC2) = ["B", "B"] ∧
    ¬ (emissionOrder (main_run "b" docC2)).Nodup ∧
    (main_run "b" docC2).rootName = "B" ∧
    (main_run "b" docC2).classes.map Prod.fst = ["B"] := by decide

/-- C6 (failing input): on `{"l": [{"k": 1}, 2]}` the root class stores
the raw list as default and `__post_init__` rebuilds every element with
the item constructor sliced from `List[L | int]`; constructing the root
from its captured defaults therefore fails (Python raises `TypeError:
'k' is an invalid keyword argument for int()`), so the round-trip
property does not hold for this generated record.  The failure is a real
constructor error, not exhausted fuel. -/
theorem c6_roundtrip_fails :
    isCtorError (constructFromDefaults (main_run "root" docC6) 8) = true ∧
    fieldTyps (main_run "root" docC6).rootDef "l" = ["List[L | int]"] ∧
    ((main_run "root" docC6).rootDef.fields.map (fun f => f.conv)) = [some ("L | int", true)] := by
  decide

theorem nodup_proj_eq {α γ : Type} (f : α → γ) :
    ∀ l : List α, (l.map f).Nodup →
      ∀ p q, p ∈ l → q ∈ l → f p = f q → p = q := by
  intro l
  induction l with
  | nil => intro _ p q hp; cases hp
  | cons x xs ih =>
    intro h p q hp hq hf
    rw [List.map_cons, List.nodup_cons] at h
    rcases List.mem_cons.mp hp with rfl | hp1 <;> rcases List.mem_cons.mp hq with rfl | hq1
    · rfl
    · exact absurd (hf ▸ List.mem_map_of_mem f hq1) h.1
    · exact absurd (hf ▸ List.mem_map_of_mem f hp1) h.1
    · exact ih h.2 p q hp1 hq1 hf

/-- C1 (counterexample): on `{"b": {"x": {"p": 1}}, "c": {"x": {"q": 2}}}`
the sibling objects under `b` and `c` share key names and immediate
value kinds but differ in nested shape (their full recursive signatures
`deepSig` differ), yet the inferencer maps both to the same record `B`:
the claimed full-recursive deduplication rule is false for this code. -/
theorem c1_counterexample :
    fieldTyps (main_run "root" docC1bad).rootDef "b" = ["B"] ∧
    fieldTyps (main_run "root" docC1bad).rootDef "c" = ["B"] ∧
    (main_run "root" docC1bad).classes.map Prod.fst = ["X", "B"] ∧
    deepSig (J.obj [("x", J.obj [("p", J.int 1)])]) ≠
      deepSig (J.obj [("x", J.obj [("q", J.int 2)])]) := by decide

/-- C1 (amended): deduplication is keyed on the shallow structural
signature `sigOf` — the sorted key list paired with each value's
immediate `type(...).__name__` — and within a run this keying is exact:
two registry entries carry the same record name iff they carry the same
shallow signature (the registry is injective in both directions).  In
particular `{"a":1,"b":{"x":1},"c":{"x":2}}` creates exactly one record,
referenced by both `b` and `c`; but sibling objects that share keys and
immediate kinds while differing in nested shape are also merged. -/
theorem c1_shallow_dedup :
    (∀ (stem : String) (doc : List (String × J)) p q,
      p ∈ (main_run stem doc).smap → q ∈ (main_run stem doc).smap →
      (p.2 = q.2 ↔ p.1 = q.1)) ∧
    ((main_run "root" docC1good).classes.map Prod.fst = ["B"] ∧
     fieldTyps (main_run "root" docC1good).rootDef "b" = ["B"] ∧
     fieldTyps (main_run "root" docC1good).rootDef "c" = ["B"]) := by
  constructor
  · intro stem doc p q hp hq
    have hInv : StInv (generate_class doc st0).2 := (generate_class_st0 doc).1
    constructor
    · intro h
      exact congrArg Prod.fst (nodup_proj_eq Prod.snd _ hInv.valsNodup p q hp hq h)
    · intro h
      exact congrArg Prod.snd (nodup_proj_eq Prod.fst _ hInv.keysNodup p q hp hq h)
  · exact ⟨by decide, by decide, by decide⟩

/-- C1 witness: the amended dedup rule applied at the spec's example. -/
theorem c1_witness :
    ("B" = "B" ↔ sigOf [("x", J.int 1)] = sigOf [("x", J.int 2)]) :=
  c1_shallow_dedup.1 "root" docC1good (sigOf [("x", J.int 1)], "B")
    (sigOf [("x", J.int 2)], "B") (by decide) (by decide)

/-- C3 (counterexample): the second structurally new object whose base
name is `Foo` is named `Foo1`, not `Foo2`: the integer suffixes start at
1 (`counter` starts at 0 and is incremented before use,
src/generator.py lines 129-133). -/
theorem c3_counterexample :
    (main_run "root" docC3).classes.map Prod.fst = ["Foo", "Foo1", "X"] ∧
    "Foo1" ∈ (main_run "root" docC3).classes.map Prod.fst ∧
    "Foo2" ∉ (main_run "root" docC3).classes.map Prod.fst := by decide

/-- C3 (amended): the first request for a base name returns it
unchanged; each subsequent request returns the base name with an
increasing integer suffix starting at 1 (`Foo`, `Foo1`, `Foo2`, ...),
skipping suffixes already produced and never returning a name already
used: `alloc` returns `mkName base k` for the least counter `k` whose
candidate is free. -/
theorem c3_allocator (used : List String) (base : String) :
    (base ∉ used → alloc used base = base) ∧
    alloc used base ∉ used ∧
    (∃ k, alloc used base = mkName base k ∧ mkName base k ∉ used ∧
      ∀ j < k, mkName base j ∈ used) :=
  ⟨alloc_eq_base used base, alloc_not_mem used base, alloc_spec used base⟩

/-- C3 witness: concrete allocations. -/
theorem c3_witness :
    alloc ["Foo", "Foo1"] "Foo" ∉ ["Foo", "Foo1"] ∧ alloc ["Bar"] "Foo" = "Foo" :=
  ⟨(c3_allocator ["Foo", "Foo1"] "Foo").2.1, (c3_allocator ["Bar"] "Foo").1 (by decide)⟩

/-- C4 (counterexample): on `{"a": {"b": {"x": 1}}}` the registry entries
are created in the order `A`, `B` (signature registered before recursing)
but the emitted artifact lists `B` before `A`, because a class is stored
only after its body — hence all records discovered inside it — has been
generated: emission order is not first-discovery order. -/
theorem c4_counterexample :
    (main_run "root" docC4).smap.map Prod.snd = ["A", "B"] ∧
    (main_run "root" docC4).classes.map Prod.fst = ["B", "A"] ∧
    emissionOrder (main_run "root" docC4) = ["B", "A", "Root"] ∧
    (main_run "root" docC4).classes.map Prod.fst ≠ (main_run "root" docC4).smap.map Prod.snd := by
  decide

/-- C4 (amended): record definitions are emitted in completion order —
the order in which their class bodies finished generating, which is a
permutation of the registry-creation (first-discovery) order but in
general differs from it — and the root definition is emitted last. -/
theorem c4_completion_order (stem : String) (doc : List (String × J)) :
    emissionOrder (main_run stem doc) =
      (main_run stem doc).classes.map Prod.fst ++ [(main_run stem doc).rootName] ∧
    ((main_run stem doc).classes.map Prod.fst).Perm ((main_run stem doc).smap.map Prod.snd) := by
  refine ⟨rfl, ?_⟩
  have hInv : StInv (generate_class doc st0).2 := (generate_class_st0 doc).1
  have hstack : (generate_class doc st0).2.stack = [] := (generate_class_st0 doc).2.1.stackEq
  apply (List.perm_ext_iff_of_nodup hInv.namesNodup hInv.valsNodup).mpr
  intro a
  constructor
  · exact hInv.namesReg a
  · intro ha
    obtain ⟨p, hp, he⟩ := List.mem_map.mp ha
    rcases hInv.smapReach p hp with h | h
    · exact he ▸ h
    · rw [hstack] at h
      cases h

/-- C5 (counterexample): on the document `docC5`, record `X` is emitted
first and its field `y` references record `B` (resolved via the registry
from the still-in-progress ancestor signature), yet `B` is emitted after
`X`: a record referencing another record is not always emitted after the
referenced definition. -/
theorem c5_counterexample :
    (main_run "root" docC5).classes.map Prod.fst = ["X", "B"] ∧
    ((main_run "root" docC5).classes.map (fun p => p.2.fields.map (fun f => (f.name, f.typ)))) =
      [[("y", "B")], [("x", "X")]] ∧
    ((main_run "root" docC5).classes.map (fun p => p.2.fields.map (fun f => f.refs))) =
      [[[("B", true), ("B", true)]], [[("X", false), ("X", false)]]] := by decide

/-- C5 (amended): every record reference that was NOT resolved against a
still-in-progress ancestor definition (flag `false` in the ghost `refs`)
points to a record emitted strictly earlier than the referencing record;
the root definition is emitted last and all of its references point to
records in the artifact.  Only a registry hit on an ancestor signature
(flag `true`) can produce a forward reference. -/
theorem c5_declaration_order (stem : String) (doc : List (String × J)) :
    emissionOrder (main_run stem doc) =
      (main_run stem doc).classes.map Prod.fst ++ [(main_run stem doc).rootName] ∧
    (∀ i, (hi : i < (main_run stem doc).classes.length) →
      ∀ f ∈ ((main_run stem doc).classes.get ⟨i, hi⟩).2.fields, ∀ r ∈ f.refs,
        r.2 = false →
          ∃ j, ∃ hj : j < (main_run stem doc).classes.length, j < i ∧
            ((main_run stem doc).classes.get ⟨j, hj⟩).1 = r.1) ∧
    (∀ f ∈ (main_run stem doc).rootDef.fields, ∀ r ∈ f.refs,
      r.1 ∈ (main_run stem doc).classes.map Prod.fst) := by
  have hInv : StInv (generate_class doc st0).2 := (generate_class_st0 doc).1
  have hroot := (generate_class_st0 doc).2.2
  refine ⟨rfl, ?_, ?_⟩
  · intro i hi f hf r hr hfalse
    exact (hInv.refInv i hi f hf r hr).1 hfalse
  · intro f hf r hr
    have h := hroot f hf r hr
    cases hb : r.2 with
    | false => exact h.1 hb
    | true => exact absurd (h.2 hb) (List.not_mem_nil _)

/-- C5 witness: in the run on `docC4`, record `A` (index 1) references
record `B` through a completed-definition reference, and `B` indeed sits
at an earlier index. -/
theorem c5_witness :
    ∃ j, ∃ hj : j < (main_run "root" docC4).classes.length, j < 1 ∧
      ((main_run "root" docC4).classes.get ⟨j, hj⟩).1 =
        ((((main_run "root" docC4).classes.get ⟨1, by decide⟩).2.fields.get
            ⟨0, by decide⟩).refs.get ⟨0, by decide⟩).1 :=
  (c5_declaration_order "root" docC4).2.1 1 (by decide) _ (List.get_mem _ _ _) _
    (List.get_mem _ _ _) (by decide)

/-- C7: for a non-empty array whose elements yield more than one distinct
type string, the rendered type is `List[...]` of the distinct strings
sorted lexically and joined with ` | `; the rendering depends only on
the SET of element type strings, so it is independent of element order —
in particular `{"list":[1,"a"]}` and `{"list":["a",1]}` render the same
union text. -/
theorem c7_union_order :
    (∀ ts1 ts2 : List String, (∀ x, x ∈ ts1 ↔ x ∈ ts2) →
      renderListType ts1 = renderListType ts2) ∧
    (∀ ts : List String, 2 ≤ ts.dedup.length →
      renderListType ts = "List[" ++ joinSep " | " (sortStr ts.dedup) ++ "]") ∧
    fieldTyps (main_run "list" docU1).rootDef "list" = ["List[int | str]"] ∧
    fieldTyps (main_run "list" docU2).rootDef "list" = ["List[int | str]"] := by
  refine ⟨?_, ?_, by decide, by decide⟩
  · intro ts1 ts2 hmem
    have hperm : ts1.dedup.Perm ts2.dedup := by
      apply (List.perm_ext_iff_of_nodup (List.nodup_dedup _) (List.nodup_dedup _)).mpr
      intro a
      rw [List.mem_dedup, List.mem_dedup]
      exact hmem a
    rw [renderListType_eq, renderListType_eq, sortStr_canonical hperm]
  · intro ts _
    exact renderListType_eq ts

/-- C7 witness: the invariance applied to two orderings of the same
element-type set. -/
theorem c7_witness :
    renderListType ["int", "str", "int"] = renderListType ["str", "int"] ∧
    renderListType ["str", "int"] = "List[int | str]" := by
  refine ⟨c7_union_order.1 _ _ ?_, by decide⟩
  intro x
  constructor
  · intro h
    rcases List.mem_cons.mp h with rfl | h1
    · exact List.mem_cons_of_mem _ (List.mem_cons_self _ _)
    · rcases List.mem_cons.mp h1 with rfl | h2
      · exact List.mem_cons_self _ _
      · rcases List.mem_cons.mp h2 with rfl | h3
        · exact List.mem_cons_of_mem _ (List.mem_cons_self _ _)
        · cases h3
  · intro h
    rcases List.mem_cons.mp h with rfl | h1
    · exact List.mem_cons_of_mem _ (List.mem_cons_self _ _)
    · rcases List.mem_cons.mp h1 with rfl | h2
      · exact List.mem_cons_self _ _
      · cases h2

/-- C10 (counterexample): with input file `b.json` and document
`{"b": {"x": 1}}`, the registry's single entry maps to the name `B`,
which equals the root definition's name: a registry entry CAN map to the
root definition's name. -/
theorem c10_counterexample :
    (main_run "b" docC2).smap.map Prod.snd = ["B"] ∧
    (main_run "b" docC2).rootName = "B" := by decide

/-- C10 (amended): the driver never registers the root object itself, so
every registry entry maps to a record created during traversal — an
entry of the emitted class map — and a nested object structurally
identical to the root therefore resolves to a traversal-created
definition, never to the root definition itself.  A registry entry's
NAME can still coincide with the root name, because the allocator never
reserves it. -/
theorem c10_registry_names (stem : String) (doc : List (String × J)) :
    ∀ p ∈ (main_run stem doc).smap, p.2 ∈ (main_run stem doc).classes.map Prod.fst := by
  intro p hp
  have hInv : StInv (generate_class doc st0).2 := (generate_class_st0 doc).1
  have hstack : (generate_class doc st0).2.stack = [] := (generate_class_st0 doc).2.1.stackEq
  rcases hInv.smapReach p hp with h | h
  · exact h
  · rw [hstack] at h
    cases h

/-- C10 witness: the registry entry of the `docC2` run resolves to the
(sole) traversal-created class. -/
theorem c10_witness :
    (sigOf [("x", J.int 1)], "B").2 ∈ (main_run "b" docC2).classes.map Prod.fst :=
  c10_registry_names "b" docC2 _ (by decide)
